import Mathlib

/-!
Verification development for the lindel space-filling-curve codec
(Hilbert and Morton linearization of fixed-width numeric tuples).

The extension's C++ translation unit `lindel_extension.cpp` (included in
the sources, appended to `src/README.md`) performs binding, type dispatch,
lane loading and the per-row batch loops; those functions are transcribed
below.  The inner codec lives in the Rust crate `duckdb_lindel_rust`,
which is not part of the sources — only its cbindgen header
(`src/include/rust.h`) is — so the codec itself is modelled from the
specification and pinned to the repository's own test fixtures
(`test/sql/lindel.test`).
-/

namespace Lindel

/-- Bit `q` of a natural number, as `0` or `1`. -/
def bitAt (x q : ℕ) : ℕ := (x >>> q) &&& 1

/-- Modelled from the spec: `gray_decode`, the iterative xor-shift inverse of
`gray_encode(x) = x XOR (x >> 1)`; the first argument bounds the bit width. -/
def gdAux : ℕ → ℕ → ℕ
  | 0, _ => 0
  | f + 1, v => v ^^^ gdAux f (v >>> 1)

/-- Modelled from the spec: `gray_encode(x) = x XOR (x >> 1)`. -/
def grayCode (v : ℕ) : ℕ := v ^^^ (v >>> 1)

/-! ### Morton codec

Modelled from the spec: the Rust Morton codec (`morton_encode_*` in
`src/include/rust.h`) is not part of the sources.  The bit layout is pinned
by the repository's test fixture `morton_encode([1,2,3]::tinyint[3]) = 29`
and the 5×5 grid fixtures: bit `i·N + (N−1−j)` of the code word is bit `i`
of lane `j`, i.e. lane 0 occupies the top position of each `N`-bit group. -/

/-- Sum of weighted bits: `bitSum f M = Σ_{p < M} f p · 2^p`, as a structural recursion. -/
def bitSum (f : ℕ → ℕ) : ℕ → ℕ
  | 0 => 0
  | p + 1 => bitSum f p + f p * 2 ^ p

/-- The bit of the code word at position `p`: lane `N−1−(p % N)`, bit `p / N`. -/
def mortonBit (L : List ℕ) (p : ℕ) : ℕ :=
  bitAt (L.getD (L.length - 1 - p % L.length) 0) (p / L.length)

/-- Morton (Z-order) encoding of lanes of width `W`. -/
def mortonEncode (W : ℕ) (L : List ℕ) : ℕ := bitSum (mortonBit L) (L.length * W)

/-- Morton (Z-order) decoding of a code word into `N` lanes of width `W`. -/
def mortonDecode (W N Z : ℕ) : List ℕ :=
  (List.range N).map fun j => bitSum (fun i => bitAt Z (i * N + (N - 1 - j))) W

/-! ### Hilbert codec

Modelled from the spec: the Rust Hilbert codec (`hilbert_encode_*` in
`src/include/rust.h`) is not part of the sources.  This is the
Butz/Lawder/Skilling generalized Hilbert algorithm the spec names (§4.3),
with the same transposed-bit layout as the Morton codec; it reproduces the
repository's test fixtures (`hilbert_encode([1,2,3]) = 22`, the 5×5 grid). -/

/-- One elementary exchange/invert step of Skilling's transform, acting on
lane `i` with pivot bit `2^k`: if bit `k` of lane `i` is set, the low `k` bits
of lane 0 are inverted, otherwise they are exchanged with those of lane `i`. -/
def opQ (k : ℕ) (X : List ℕ) (i : ℕ) : List ℕ :=
  if X.getD i 0 &&& 2 ^ k ≠ 0 then
    X.set 0 (X.getD 0 0 ^^^ (2 ^ k - 1))
  else
    (X.set 0 (X.getD 0 0 ^^^ ((X.getD 0 0 ^^^ X.getD i 0) &&& (2 ^ k - 1)))).set i
      (X.getD i 0 ^^^ ((X.getD 0 0 ^^^ X.getD i 0) &&& (2 ^ k - 1)))

/-- Forward pass over all lanes for a fixed pivot bit. -/
def innerEnc (k : ℕ) (X : List ℕ) : List ℕ := (List.range X.length).foldl (opQ k) X

/-- Backward pass over all lanes for a fixed pivot bit. -/
def innerDec (k : ℕ) (X : List ℕ) : List ℕ :=
  (List.range X.length).reverse.foldl (opQ k) X

/-- Pivot bit exponents for encoding: `W−1` down to `1`. -/
def ksEnc (W : ℕ) : List ℕ := (List.range' 1 (W - 1)).reverse

/-- Pivot bit exponents for decoding: `1` up to `W−1`. -/
def ksDec (W : ℕ) : List ℕ := List.range' 1 (W - 1)

/-- The "inverse undo" phase of Skilling's encoder. -/
def undoEnc (W : ℕ) (X : List ℕ) : List ℕ := (ksEnc W).foldl (fun Y k => innerEnc k Y) X

/-- The "undo excess work" phase of Skilling's decoder. -/
def undoDec (W : ℕ) (X : List ℕ) : List ℕ := (ksDec W).foldl (fun Y k => innerDec k Y) X

/-- Running xor of the lanes (prefix accumulation seeded with `a`). -/
def pxor : ℕ → List ℕ → List ℕ
  | _, [] => []
  | a, x :: xs => (a ^^^ x) :: pxor (a ^^^ x) xs

/-- Adjacent xor of the lanes (each lane xored with the lane before it,
the first with `p`). -/
def axor : ℕ → List ℕ → List ℕ
  | _, [] => []
  | p, x :: xs => (p ^^^ x) :: axor x xs

/-- Last element of a list of lanes, `0` for the empty list. -/
def lastd : List ℕ → ℕ
  | [] => 0
  | [x] => x
  | _ :: x :: xs => lastd (x :: xs)

/-- The Gray-coding phase of Skilling's encoder. -/
def grayEnc (W : ℕ) (X : List ℕ) : List ℕ :=
  let Y := pxor 0 X
  let t := gdAux W (lastd Y) >>> 1
  Y.map (· ^^^ t)

/-- The Gray-decoding phase of Skilling's decoder. -/
def grayDec (X : List ℕ) : List ℕ := axor (lastd X >>> 1) X

/-- Hilbert encoding of lanes of width `W`. -/
def hilbertEncode (W : ℕ) (L : List ℕ) : ℕ := mortonEncode W (grayEnc W (undoEnc W L))

/-- Hilbert decoding of a code word into `N` lanes of width `W`. -/
def hilbertDecode (W N Z : ℕ) : List ℕ := undoDec W (grayDec (mortonDecode W N Z))

/-! ### Curve kinds and dispatch -/

/-- The two codec kinds of the descriptor. -/
inductive CurveKind : Type
  | hilbert : CurveKind
  | morton : CurveKind
deriving DecidableEq

/-- Encode dispatch: the codec selected by the descriptor kind. -/
def curveEncode : CurveKind → ℕ → List ℕ → ℕ
  | CurveKind.hilbert => hilbertEncode
  | CurveKind.morton => mortonEncode

/-- Decode dispatch: the codec selected by the descriptor kind. -/
def curveDecode : CurveKind → ℕ → ℕ → ℕ → List ℕ
  | CurveKind.hilbert => hilbertDecode
  | CurveKind.morton => mortonDecode

/-! ### Lane promotion -/

/-- Two's-complement bit pattern of a signed integer of width `W`. -/
def signedToBits (W : ℕ) (z : ℤ) : ℕ := (z % ((2 : ℤ) ^ W)).toNat

/-- The signed promotion as the spec's words describe it (§3): flip the top
bit of the two's-complement pattern. -/
def specPromoteSigned (W : ℕ) (z : ℤ) : ℕ := signedToBits W z ^^^ 2 ^ (W - 1)

/-- Transcribed from `lindelEncodeArrayFunc` in `lindel_extension.cpp`:
signed lanes are loaded through plain pointer casts — e.g.
`(uint8_t*)(left_data_8 + left_offset)` for TINYINT, and likewise
`(uint16_t*)`, `(uint32_t*)`, `(uint64_t*)` for the wider signed types —
so the two's-complement bit pattern reaches the codec unchanged; no bit is
flipped.  The tinyint fixtures `hilbert_encode([1,2,3]) = 22` and
`morton_encode([1,2,3]) = 29` agree, coinciding with the unsigned u8
fixtures of spec §8, which a top-bit flip would not reproduce. -/
def codePromoteSigned (W : ℕ) (z : ℤ) : ℕ := signedToBits W z

/-- The float promotion as the spec's words describe it (§3): flip the top
bit of a non-negative pattern, invert all bits of a negative one. -/
def specPromoteFloat (W : ℕ) (bits : ℕ) : ℕ :=
  if bits &&& 2 ^ (W - 1) = 0 then bits ^^^ 2 ^ (W - 1) else bits ^^^ (2 ^ W - 1)

/-- Transcribed from `lindelEncodeArrayFunc` in `lindel_extension.cpp`:
float lanes are loaded through `(uint32_t*)(left_data_float + left_offset)`
and double lanes through `(uint64_t*)(left_data_double + left_offset)`, so
the raw IEEE-754 bit pattern reaches the codec unchanged.  The README
fixtures `hilbert_encode([37.8, .2]::float[2]) = 2303654869236839926`,
`hilbert_encode([1.0, 5.0, 6.0]::float[3]) =
8002395622101954260073409974` and `hilbert_encode([37.8, .2]::double[2]) =
42534209309512799991913666633619307890` all equal the codec applied to the
raw bit patterns and none equals it applied to the spec's flipped patterns. -/
def codePromoteFloat (W : ℕ) (bits : ℕ) : ℕ := bits

/-- Unsigned lanes are promoted by the identity. -/
def codePromoteUnsigned (W : ℕ) (n : ℕ) : ℕ := n

/-- Model of the numeric order on non-NaN IEEE-754 bit patterns of width `W`:
bit `W−1` is the sign, the low `W−1` bits order finite magnitudes
monotonically, and `−0` equals `+0`. -/
def floatLe (W : ℕ) (a b : ℕ) : Prop :=
  (a % 2 ^ (W - 1) = 0 ∧ b % 2 ^ (W - 1) = 0) ∨
  (a / 2 ^ (W - 1) = 1 ∧ b / 2 ^ (W - 1) = 0) ∨
  (a / 2 ^ (W - 1) = 0 ∧ b / 2 ^ (W - 1) = 0 ∧ a % 2 ^ (W - 1) ≤ b % 2 ^ (W - 1)) ∨
  (a / 2 ^ (W - 1) = 1 ∧ b / 2 ^ (W - 1) = 1 ∧ b % 2 ^ (W - 1) ≤ a % 2 ^ (W - 1))

instance (W a b : ℕ) : Decidable (floatLe W a b) := by
  unfold floatLe
  infer_instance

/-! ### The C++ bridge: binding, dispatch and batch loops

Transcribed from the extension's translation unit `lindel_extension.cpp`,
which is included in the sources (appended to `src/README.md`).  Array
element types are represented by `ElemRepr`; the unsigned code-word types
UTINYINT, USMALLINT, UINTEGER, UBIGINT, UHUGEINT are represented by their
bit widths 8, 16, 32, 64, 128. -/

/-- The array element types handled by the C++ type switches. -/
inductive ElemRepr : Type
  | u8 | u16 | u32 | u64 | i8 | i16 | i32 | i64 | f32 | f64
deriving DecidableEq

/-- The lane width of each element representation. -/
def reprWidth : ElemRepr → ℕ
  | .u8 => 8
  | .u16 => 16
  | .u32 => 32
  | .u64 => 64
  | .i8 => 8
  | .i16 => 16
  | .i32 => 32
  | .i64 => 64
  | .f32 => 32
  | .f64 => 64

/-- The value `c` rounded up to the smallest standard width in
{8,16,32,64,128}, `none` above 128 — the claim's formulation of the bound
output width, compared below with the transcribed bind switch. -/
def stdCeil (c : ℕ) : Option ℕ :=
  if c ≤ 8 then some 8
  else if c ≤ 16 then some 16
  else if c ≤ 32 then some 32
  else if c ≤ 64 then some 64
  else if c ≤ 128 then some 128
  else none

/-- Transcribed from `lindelEncodeArrayBind`: the switch over the input
array's child type and element count that selects the output code-word type
(as its width), or throws `InvalidInputException`.  The kind recorded in
the bind data plays no role in the output type. -/
def lindelEncodeArrayBind (r : ElemRepr) (n : ℕ) : Except String ℕ :=
  match r with
  | ElemRepr.f64 =>
    if n = 1 then Except.ok 64
    else if n = 2 then Except.ok 128
    else Except.error
      "hilbert_encode()/morton_encode() only supports arrays of lengths of 1 or 2 for DOUBLE."
  | ElemRepr.f32 =>
    if n = 1 then Except.ok 32
    else if n = 2 then Except.ok 64
    else if n = 3 ∨ n = 4 then Except.ok 128
    else Except.error
      "hilbert_encode()/morton_encode() only supports arrays of lengths 1-4 for FLOAT."
  | ElemRepr.u64 | ElemRepr.i64 =>
    if n = 1 then Except.ok 64
    else if n = 2 then Except.ok 128
    else Except.error
      "hilbert_encode()/morton_encode() only supports arrays of lengths of 1 or 2 for BIGINT/UBIGINT."
  | ElemRepr.u32 | ElemRepr.i32 =>
    if n = 1 then Except.ok 32
    else if n = 2 then Except.ok 64
    else if n = 3 ∨ n = 4 then Except.ok 128
    else Except.error
      "hilbert_encode()/morton_encode() only supports arrays of lengths 1-4 for UINTEGER/INTEGER."
  | ElemRepr.u16 | ElemRepr.i16 =>
    if n = 1 then Except.ok 16
    else if n = 2 then Except.ok 32
    else if n = 3 ∨ n = 4 then Except.ok 64
    else if 5 ≤ n ∧ n ≤ 8 then Except.ok 128
    else Except.error
      "hilbert_encode()/morton_encode() only supports arrays of lengths 1-8 for USMALLINT/SMALLINT."
  | ElemRepr.u8 | ElemRepr.i8 =>
    if n = 1 then Except.ok 8
    else if n = 2 then Except.ok 16
    else if n = 3 ∨ n = 4 then Except.ok 32
    else if 5 ≤ n ∧ n ≤ 8 then Except.ok 64
    else if 9 ≤ n ∧ n ≤ 16 then Except.ok 128
    else Except.error
      "hilbert_encode()/morton_encode() only supports arrays of lengths 1-16 for UTINYINT/TINYINT."

/-- Transcribed from the per-row type switch of `lindelEncodeArrayFunc`:
the code word written for one non-NULL row of raw lane bit patterns.  In
every arm the C++ selects `encoder` by the bound kind
(`bind_info.encoding_type == 0 ? hilbert_encode_uW_var : morton_encode_uW_var`)
— except the FLOAT length-4 arm, which calls `hilbert_encode_u32_var`
directly, ignoring the kind.  The inner `switch(array_number_of_elements)`
only chooses the output buffer; its default arms throw and are unreachable
for element counts the bind accepted. -/
def lindelEncodeRow (k : CurveKind) (r : ElemRepr) (n : ℕ) (L : List ℕ) : ℕ :=
  match r with
  | ElemRepr.f32 => if n = 4 then hilbertEncode 32 L else curveEncode k 32 L
  | _ => curveEncode k (reprWidth r) L

/-- Load the lanes of one row, failing on a NULL lane (the row-level
`CheckAllValid` of `lindelEncodeArrayFunc`). -/
def extractRow {α : Type} : List (Option α) → Option (List α)
  | [] => some []
  | none :: _ => none
  | some x :: rest => (extractRow rest).map (x :: ·)

/-- Transcribed from the row loop of `lindelEncodeArrayFunc`: a NULL input
row yields a NULL output row (`FlatVector::SetNull` … `continue`, so no
codec is invoked for it); a NULL lane inside a non-NULL row throws
`InvalidInputException` with the formatted message
"hilbert_encode: array can not contain NULL values", aborting the batch. -/
def lindelEncodeArrayFunc (k : CurveKind) (r : ElemRepr) (n : ℕ) :
    List (Option (List (Option ℕ))) → Except String (List (Option ℕ))
  | [] => Except.ok []
  | none :: rest => (lindelEncodeArrayFunc k r n rest).map (fun out => none :: out)
  | some lanes :: rest =>
    match extractRow lanes with
    | none => Except.error "hilbert_encode: array can not contain NULL values"
    | some vs =>
      (lindelEncodeArrayFunc k r n rest).map
        (fun out => some (lindelEncodeRow k r n vs) :: out)

/-- A bind-time argument of the decode functions: a constant non-NULL value,
a constant NULL, or an expression that is not constant-foldable. -/
inductive BindArg (α : Type) : Type
  | value : α → BindArg α
  | nullConst : BindArg α
  | notConst : BindArg α
deriving DecidableEq

/-- Transcribed from the `get_foldable_value` lambda of
`lindelDecodeToArrayBind`: a non-foldable argument throws the error message,
and a constant that is NULL throws it with the not-null suffix. -/
def getFoldable {α : Type} : BindArg α → Except String α
  | BindArg.value a => Except.ok a
  | BindArg.notConst =>
    Except.error "hilbert_decode(ANY, TINYINT, BOOLEAN, BOOLEAN)"
  | BindArg.nullConst =>
    Except.error "hilbert_decode(ANY, TINYINT, BOOLEAN, BOOLEAN) expected a not-null value"

/-- A successful decode bind: the kind recorded in the bind data and the
bound return array type `retBase[retParts]`. -/
structure DecodeBound : Type where
  kind : CurveKind
  retBase : ElemRepr
  retParts : ℕ
deriving DecidableEq

/-- Transcribed from `lindelDecodeToArrayBind`, with the width `C` of the
(always unsigned) input code-word type standing for `left_type`.  Arguments
2–4 pass through `get_foldable_value`; a zero part count throws; with
`return_float` a UINTEGER input binds FLOAT[1] whatever the part count,
UBIGINT binds DOUBLE[1] or FLOAT[2], UHUGEINT binds DOUBLE[2] or
FLOAT[3..4]; with one part the type-options check admits only the four
unsigned input types UTINYINT…UBIGINT (so `return_unsigned = false`, whose
options are the signed types, always throws, as does UHUGEINT) and returns
the input type itself; larger part counts follow the per-type maps
(UINTEGER has entries only for 2 and 3 parts). -/
def lindelDecodeToArrayBind (k : CurveKind) (C : ℕ) (nParts : BindArg ℕ)
    (rf ru : BindArg Bool) : Except String DecodeBound :=
  match getFoldable nParts with
  | Except.error e => Except.error e
  | Except.ok np =>
  match getFoldable rf with
  | Except.error e => Except.error e
  | Except.ok f =>
  match getFoldable ru with
  | Except.error e => Except.error e
  | Except.ok u =>
  if np = 0 then Except.error "Number of parts to return must be greater than 0."
  else if f = true then
    if C = 32 then Except.ok ⟨k, ElemRepr.f32, 1⟩
    else if C = 64 then
      if np = 1 then Except.ok ⟨k, ElemRepr.f64, 1⟩
      else if np = 2 then Except.ok ⟨k, ElemRepr.f32, 2⟩
      else Except.error "Expected 1 or 2 parts for UBIGINT"
    else if C = 128 then
      if np = 2 then Except.ok ⟨k, ElemRepr.f64, 2⟩
      else if 3 ≤ np ∧ np ≤ 4 then Except.ok ⟨k, ElemRepr.f32, np⟩
      else Except.error "Expected 2-4 parts for UHUGEINT"
    else Except.error "Expected UINTEGER, UBIGINT, or UHUGEINT"
  else if np = 1 then
    if u = true ∧ (C = 8 ∨ C = 16 ∨ C = 32 ∨ C = 64) then
      Except.ok ⟨k, if C = 8 then ElemRepr.u8 else if C = 16 then ElemRepr.u16
        else if C = 32 then ElemRepr.u32 else ElemRepr.u64, 1⟩
    else Except.error
      "Expected one of the following types:UINTEGER, USMALLINT, UTINYINT, UBIGINT, UHUGEINT"
  else
    if C = 8 then Except.error "Expected 1 parts for UTINYINT"
    else if C = 16 then
      if np = 2 then Except.ok ⟨k, if u then ElemRepr.u8 else ElemRepr.i8, 2⟩
      else Except.error "Expected 2 parts for USMALLINT"
    else if C = 32 then
      if np = 2 then Except.ok ⟨k, if u then ElemRepr.u16 else ElemRepr.i16, 2⟩
      else if np = 3 then Except.ok ⟨k, if u then ElemRepr.u8 else ElemRepr.i8, 3⟩
      else Except.error "Expected 2-4 parts for UINTEGER"
    else if C = 64 then
      if np = 2 then Except.ok ⟨k, if u then ElemRepr.u32 else ElemRepr.i32, 2⟩
      else if np = 3 ∨ np = 4 then
        Except.ok ⟨k, if u then ElemRepr.u16 else ElemRepr.i16, np⟩
      else if 5 ≤ np ∧ np ≤ 8 then
        Except.ok ⟨k, if u then ElemRepr.u8 else ElemRepr.i8, np⟩
      else Except.error "Expected 2-8 parts for UBIGINT"
    else if C = 128 then
      if np = 2 then Except.ok ⟨k, if u then ElemRepr.u64 else ElemRepr.i64, 2⟩
      else if np = 3 ∨ np = 4 then
        Except.ok ⟨k, if u then ElemRepr.u32 else ElemRepr.i32, np⟩
      else if 5 ≤ np ∧ np ≤ 8 then
        Except.ok ⟨k, if u then ElemRepr.u16 else ElemRepr.i16, np⟩
      else if 9 ≤ np ∧ np ≤ 16 then
        Except.ok ⟨k, if u then ElemRepr.u8 else ElemRepr.i8, np⟩
      else Except.error "Expected 2-16 parts for UHUGEINT"
    else Except.error "Expected UINTEGER, USMALLINT, UTINYINT, UBIGINT, or UHUGEINT"

/-- Transcribed from the type switch of `lindelDecodeArrayFun`: one non-NULL
row calls `perform_decode(encoding_type, width, …)` with the bit width of
the bound element type. -/
def lindelDecodeRow (k : CurveKind) (base : ElemRepr) (nParts Z : ℕ) : List ℕ :=
  curveDecode k (reprWidth base) nParts Z

/-- Transcribed from the row loop of `lindelDecodeArrayFun`: a NULL input
row yields a NULL output row (`FlatVector::SetNull` … `continue`, so no
codec is invoked for it). -/
def lindelDecodeArrayFun (k : CurveKind) (base : ElemRepr) (nParts : ℕ) :
    List (Option ℕ) → List (Option (List ℕ))
  | [] => []
  | none :: rest => none :: lindelDecodeArrayFun k base nParts rest
  | some z :: rest =>
    some (lindelDecodeRow k base nParts z) :: lindelDecodeArrayFun k base nParts rest

/-! ### Bit-sum machinery -/

theorem bitAt_eq (x q : ℕ) : bitAt x q = x / 2 ^ q % 2 := by
  simp [bitAt, Nat.shiftRight_eq_div_pow, Nat.and_one_is_mod]

theorem bitAt_le_one (x q : ℕ) : bitAt x q ≤ 1 := by
  rw [bitAt_eq]
  omega

theorem bitSum_lt (f : ℕ → ℕ) (M : ℕ) (hf : ∀ p, p < M → f p ≤ 1) :
    bitSum f M < 2 ^ M := by
  induction M with
  | zero => simp [bitSum]
  | succ M ih =>
    have h1 : bitSum f M < 2 ^ M := ih fun p hp => hf p (Nat.lt_succ_of_lt hp)
    have h2 : f M * 2 ^ M ≤ 2 ^ M := by
      have := hf M (Nat.lt_succ_self M)
      nlinarith [Nat.pos_pow_of_pos M (show 0 < 2 by norm_num)]
    simp only [bitSum]
    have : (2 : ℕ) ^ (M + 1) = 2 ^ M + 2 ^ M := by ring
    omega

theorem bitSum_congr (f g : ℕ → ℕ) (M : ℕ) (h : ∀ p, p < M → f p = g p) :
    bitSum f M = bitSum g M := by
  induction M with
  | zero => rfl
  | succ M ih =>
    simp only [bitSum]
    rw [ih fun p hp => h p (Nat.lt_succ_of_lt hp), h M (Nat.lt_succ_self M)]

theorem bitAt_bitSum (f : ℕ → ℕ) (M q : ℕ) (hf : ∀ p, p < M → f p ≤ 1)
    (hq : q < M) : bitAt (bitSum f M) q = f q := by
  induction M with
  | zero => omega
  | succ M ih =>
    have hS : bitSum f M < 2 ^ M := bitSum_lt f M fun p hp => hf p (Nat.lt_succ_of_lt hp)
    simp only [bitSum]
    rcases Nat.lt_or_ge q M with hlt | hge
    · rw [bitAt_eq]
      have hsplit : 2 ^ M = 2 ^ (M - q - 1) * 2 * 2 ^ q := by
        rw [Nat.mul_assoc, ← Nat.pow_succ']
        rw [← Nat.pow_add]
        congr 1
        omega
      rw [hsplit, show f M * (2 ^ (M - q - 1) * 2 * 2 ^ q) =
        f M * (2 ^ (M - q - 1) * 2) * 2 ^ q by ring]
      rw [Nat.add_mul_div_right _ _ (Nat.pos_pow_of_pos q (by norm_num))]
      rw [show f M * (2 ^ (M - q - 1) * 2) = f M * 2 ^ (M - q - 1) * 2 by ring]
      rw [Nat.add_mul_mod_self_right]
      rw [← bitAt_eq]
      exact ih (fun p hp => hf p (Nat.lt_succ_of_lt hp)) hlt
    · have hqM : q = M := by omega
      subst hqM
      rw [bitAt_eq]
      rw [Nat.add_mul_div_right _ _ (Nat.pos_pow_of_pos q (by norm_num))]
      rw [Nat.div_eq_of_lt hS]
      have := hf q (Nat.lt_succ_self q)
      omega

theorem bitAt_lt_two_pow {x M q : ℕ} (hx : x < 2 ^ M) (hq : M ≤ q) :
    bitAt x q = 0 := by
  rw [bitAt_eq]
  have : x < 2 ^ q := lt_of_lt_of_le hx (Nat.pow_le_pow_right (by norm_num) hq)
  rw [Nat.div_eq_of_lt this]

theorem bitSum_bitAt_mod (x M : ℕ) : bitSum (fun i => bitAt x i) M = x % 2 ^ M := by
  induction M with
  | zero => simp [bitSum, Nat.mod_one]
  | succ M ih =>
    simp only [bitSum]
    rw [ih, Nat.pow_succ, Nat.mod_mul, bitAt_eq]
    ring

theorem bitSum_bitAt (x M : ℕ) (hx : x < 2 ^ M) :
    bitSum (fun i => bitAt x i) M = x := by
  rw [bitSum_bitAt_mod, Nat.mod_eq_of_lt hx]

/-! ### Morton round trip -/

theorem pos_mod (N i j : ℕ) (hN : 0 < N) (hj : j < N) :
    (i * N + (N - 1 - j)) % N = N - 1 - j := by
  rw [Nat.add_comm, Nat.add_mul_mod_self_right, Nat.mod_eq_of_lt (by omega)]

theorem pos_div (N i j : ℕ) (hN : 0 < N) (hj : j < N) :
    (i * N + (N - 1 - j)) / N = i := by
  rw [Nat.add_comm, Nat.add_mul_div_right _ _ hN, Nat.div_eq_of_lt (by omega)]
  omega

theorem mortonBit_le_one (L : List ℕ) (p : ℕ) : mortonBit L p ≤ 1 := bitAt_le_one _ _

theorem mortonBit_eq (L : List ℕ) (i j : ℕ) (hj : j < L.length) :
    mortonBit L (i * L.length + (L.length - 1 - j)) = bitAt (L.getD j 0) i := by
  have hN : 0 < L.length := by omega
  unfold mortonBit
  rw [pos_mod _ _ _ hN hj, pos_div _ _ _ hN hj]
  congr 2
  omega

theorem mortonEncode_lt (W : ℕ) (L : List ℕ) :
    mortonEncode W L < 2 ^ (L.length * W) :=
  bitSum_lt _ _ fun p _ => mortonBit_le_one L p

theorem bitAt_mortonEncode (W : ℕ) (L : List ℕ) (i j : ℕ) (hi : i < W)
    (hj : j < L.length) :
    bitAt (mortonEncode W L) (i * L.length + (L.length - 1 - j)) =
      bitAt (L.getD j 0) i := by
  have hpos : i * L.length + (L.length - 1 - j) < L.length * W := by
    have h1 : i * L.length + L.length ≤ W * L.length := by
      have := Nat.mul_le_mul_right L.length (show i + 1 ≤ W from hi)
      rwa [Nat.succ_mul] at this
    have h2 : L.length * W = W * L.length := Nat.mul_comm _ _
    omega
  rw [mortonEncode, bitAt_bitSum _ _ _ (fun p _ => mortonBit_le_one L p) hpos,
    mortonBit_eq _ _ _ hj]

theorem mortonDecode_length (W N Z : ℕ) : (mortonDecode W N Z).length = N := by
  simp [mortonDecode]

theorem mortonDecode_bounds (W N Z : ℕ) : ∀ x ∈ mortonDecode W N Z, x < 2 ^ W := by
  intro x hx
  simp only [mortonDecode, List.mem_map] at hx
  obtain ⟨j, _, rfl⟩ := hx
  exact bitSum_lt _ _ fun p _ => bitAt_le_one _ _

theorem mortonDecode_getD (W N Z j : ℕ) (hj : j < N) :
    (mortonDecode W N Z).getD j 0 =
      bitSum (fun i => bitAt Z (i * N + (N - 1 - j))) W := by
  have hlen : (mortonDecode W N Z).length = N := mortonDecode_length W N Z
  rw [List.getD_eq_getElem?_getD]
  rw [List.getElem?_eq_getElem (by omega)]
  simp [mortonDecode]

theorem mortonDecode_mortonEncode (W : ℕ) (L : List ℕ)
    (hb : ∀ x ∈ L, x < 2 ^ W) :
    mortonDecode W L.length (mortonEncode W L) = L := by
  apply List.ext_getElem (by simp [mortonDecode])
  intro j h1 h2
  simp only [mortonDecode, List.getElem_map, List.getElem_range]
  have hj : j < L.length := h2
  have : ∀ i, i < W →
      bitAt (mortonEncode W L) (i * L.length + (L.length - 1 - j)) =
        bitAt (L.getD j 0) i := fun i hi => bitAt_mortonEncode W L i j hi hj
  have hgetD : L.getD j 0 = L[j] := by
    rw [List.getD_eq_getElem?_getD, List.getElem?_eq_getElem hj]
    rfl
  rw [bitSum_congr _ (fun i => bitAt (L.getD j 0) i) W fun p hp => this p hp]
  rw [bitSum_bitAt _ _ (by rw [hgetD]; exact hb _ (List.getElem_mem hj))]
  exact hgetD

theorem mortonEncode_mortonDecode (W N Z : ℕ) (hN : 0 < N)
    (hZ : Z < 2 ^ (N * W)) :
    mortonEncode W (mortonDecode W N Z) = Z := by
  unfold mortonEncode
  rw [mortonDecode_length]
  have hbit : ∀ p, p < N * W → mortonBit (mortonDecode W N Z) p = bitAt Z p := by
    intro p hp
    unfold mortonBit
    rw [mortonDecode_length]
    have hjN : N - 1 - p % N < N := by omega
    rw [mortonDecode_getD _ _ _ _ hjN]
    have hiW : p / N < W := Nat.div_lt_of_lt_mul (by omega)
    rw [bitAt_bitSum _ _ _ (fun q _ => bitAt_le_one _ _) hiW]
    congr 1
    have hmod : p % N < N := Nat.mod_lt _ hN
    have hsub : N - 1 - (N - 1 - p % N) = p % N := by omega
    rw [hsub, Nat.mul_comm]
    exact Nat.div_add_mod p N
  rw [bitSum_congr _ (fun p => bitAt Z p) _ hbit]
  exact bitSum_bitAt _ _ hZ

/-! ### Generic fold machinery -/

theorem foldl_inv {α : Type} {β : Type} (f : α → β → α) (P : α → Prop) (l : List β)
    (hpres : ∀ a b, b ∈ l → P a → P (f a b)) : ∀ a, P a → P (l.foldl f a) := by
  induction l with
  | nil => intro a ha; exact ha
  | cons b t ih =>
    intro a ha
    exact ih (fun a c hc => hpres a c (List.mem_cons_of_mem _ hc)) _
      (hpres a b (List.mem_cons_self _ _) ha)

theorem foldl_foldl_rev {α : Type} {β : Type} (f g : α → β → α) (Inv : α → Prop)
    (l : List β) (hpres : ∀ a b, b ∈ l → Inv a → Inv (f a b))
    (hinv : ∀ a b, b ∈ l → Inv a → g (f a b) b = a) :
    ∀ a, Inv a → l.reverse.foldl g (l.foldl f a) = a := by
  induction l with
  | nil => intro a _; rfl
  | cons b t ih =>
    intro a ha
    simp only [List.foldl_cons, List.reverse_cons, List.foldl_append, List.foldl_cons,
      List.foldl_nil]
    rw [ih (fun a c hc hIa => hpres a c (List.mem_cons_of_mem _ hc) hIa)
      (fun a c hc hIa => hinv a c (List.mem_cons_of_mem _ hc) hIa)
      (f a b) (hpres a b (List.mem_cons_self _ _) ha)]
    exact hinv a b (List.mem_cons_self _ _) ha

/-! ### List get/set helpers -/

theorem getD_set_eq (X : List ℕ) (i v : ℕ) (h : i < X.length) :
    (X.set i v).getD i 0 = v := by
  rw [List.getD_eq_getElem?_getD, List.getElem?_set_self h]
  rfl

theorem getD_set_ne (X : List ℕ) (i j v : ℕ) (h : i ≠ j) :
    (X.set i v).getD j 0 = X.getD j 0 := by
  rw [List.getD_eq_getElem?_getD, List.getElem?_set_ne h, ← List.getD_eq_getElem?_getD]

theorem set_getD_self (X : List ℕ) (i : ℕ) (h : i < X.length) :
    X.set i (X.getD i 0) = X := by
  apply List.ext_getElem?
  intro n
  by_cases hn : i = n
  · subst hn
    rw [List.getElem?_set_self h, List.getD_eq_getElem?_getD,
      List.getElem?_eq_getElem h]
    rfl
  · rw [List.getElem?_set_ne hn]

theorem getD_bound {W : ℕ} {X : List ℕ} (hb : ∀ x ∈ X, x < 2 ^ W) (j : ℕ) :
    X.getD j 0 < 2 ^ W := by
  rcases Nat.lt_or_ge j X.length with h | h
  · have hx : X.getD j 0 = X[j] := by
      rw [List.getD_eq_getElem?_getD, List.getElem?_eq_getElem h]
      rfl
    rw [hx]
    exact hb _ (List.getElem_mem h)
  · rw [List.getD_eq_getElem?_getD, List.getElem?_eq_none h]
    exact Nat.pos_pow_of_pos _ (by norm_num)

/-! ### Properties of the elementary Skilling step -/

theorem xor_xor_cancel (a b t : ℕ) : (a ^^^ t) ^^^ (b ^^^ t) = a ^^^ b := by
  rw [Nat.xor_comm b t, ← Nat.xor_assoc, Nat.xor_cancel_right]

theorem pred_two_pow_and_two_pow (k : ℕ) : (2 ^ k - 1) &&& 2 ^ k = 0 := by
  rw [Nat.and_comm, Nat.and_pow_two_sub_one_eq_mod, Nat.mod_self]

theorem opQ_length (k : ℕ) (X : List ℕ) (i : ℕ) : (opQ k X i).length = X.length := by
  unfold opQ
  split <;> simp

theorem opQ_zero_of_clear (k : ℕ) (X : List ℕ)
    (h : X.getD 0 0 &&& 2 ^ k = 0) (h0 : 0 < X.length) : opQ k X 0 = X := by
  unfold opQ
  rw [if_neg (by simpa using h)]
  rw [Nat.xor_self, Nat.zero_and, Nat.xor_zero, List.set_set, set_getD_self _ _ h0]

theorem opQ_opQ (k : ℕ) (X : List ℕ) (i : ℕ) (hi : i < X.length) :
    opQ k (opQ k X i) i = X := by
  have h0 : 0 < X.length := by omega
  have hPQ : (2 ^ k - 1) &&& 2 ^ k = 0 := pred_two_pow_and_two_pow k
  by_cases hb : X.getD i 0 &&& 2 ^ k ≠ 0
  · -- invert branch
    have hstep : opQ k X i = X.set 0 (X.getD 0 0 ^^^ (2 ^ k - 1)) := by
      unfold opQ
      rw [if_pos hb]
    rw [hstep]
    have hgi : (X.set 0 (X.getD 0 0 ^^^ (2 ^ k - 1))).getD i 0 &&& 2 ^ k ≠ 0 := by
      by_cases hi0 : i = 0
      · subst hi0
        rw [getD_set_eq _ _ _ h0, Nat.and_xor_distrib_right, hPQ, Nat.xor_zero]
        exact hb
      · rw [getD_set_ne _ _ _ _ fun h => hi0 h.symm]
        exact hb
    unfold opQ
    rw [if_pos hgi]
    rw [getD_set_eq _ _ _ h0, Nat.xor_cancel_right, List.set_set,
      set_getD_self _ _ h0]
  · -- exchange branch
    push_neg at hb
    by_cases hi0 : i = 0
    · subst hi0
      rw [opQ_zero_of_clear _ _ hb h0, opQ_zero_of_clear _ _ hb h0]
    · have hne0i : (0 : ℕ) ≠ i := fun h => hi0 h.symm
      set t := (X.getD 0 0 ^^^ X.getD i 0) &&& (2 ^ k - 1) with ht
      have htQ : t &&& 2 ^ k = 0 := by
        rw [ht, Nat.and_assoc, hPQ, Nat.and_zero]
      have hstep : opQ k X i =
          (X.set 0 (X.getD 0 0 ^^^ t)).set i (X.getD i 0 ^^^ t) := by
        unfold opQ
        rw [if_neg (by simpa using hb)]
      rw [hstep]
      set Y := (X.set 0 (X.getD 0 0 ^^^ t)).set i (X.getD i 0 ^^^ t) with hY
      have hYi : Y.getD i 0 = X.getD i 0 ^^^ t := by
        rw [hY, getD_set_eq _ _ _ (by simpa using hi)]
      have hY0 : Y.getD 0 0 = X.getD 0 0 ^^^ t := by
        rw [hY, getD_set_ne _ _ _ _ hi0, getD_set_eq _ _ _ h0]
      have hYcond : ¬(Y.getD i 0 &&& 2 ^ k ≠ 0) := by
        rw [hYi, Nat.and_xor_distrib_right, htQ, hb, Nat.xor_zero]
        simp
      have hYt : (Y.getD 0 0 ^^^ Y.getD i 0) &&& (2 ^ k - 1) = t := by
        rw [hY0, hYi, xor_xor_cancel]
      unfold opQ
      rw [if_neg hYcond, hYt, hY0, hYi, Nat.xor_cancel_right, Nat.xor_cancel_right]
      rw [hY, List.set_comm _ _ _ hne0i, List.set_set,
        List.set_comm _ _ _ fun h => hi0 h.symm, List.set_set,
        set_getD_self _ _ hi, set_getD_self _ _ h0]

theorem opQ_bounds (k W : ℕ) (X : List ℕ) (i : ℕ) (hk : k < W)
    (hb : ∀ x ∈ X, x < 2 ^ W) : ∀ y ∈ opQ k X i, y < 2 ^ W := by
  have hP : (2 : ℕ) ^ k - 1 < 2 ^ W := by
    have h1 : (2 : ℕ) ^ k ≤ 2 ^ W := Nat.pow_le_pow_right (by norm_num) (by omega)
    have h2 : (0 : ℕ) < 2 ^ k := Nat.pos_pow_of_pos _ (by norm_num)
    omega
  intro y hy
  unfold opQ at hy
  split at hy
  · rcases List.mem_or_eq_of_mem_set hy with h | h
    · exact hb _ h
    · rw [h]
      exact Nat.xor_lt_two_pow (getD_bound hb 0) hP
  · rcases List.mem_or_eq_of_mem_set hy with h | h
    · rcases List.mem_or_eq_of_mem_set h with h2 | h2
      · exact hb _ h2
      · rw [h2]
        exact Nat.xor_lt_two_pow (getD_bound hb 0) (Nat.and_lt_two_pow _ hP)
    · rw [h]
      exact Nat.xor_lt_two_pow (getD_bound hb i) (Nat.and_lt_two_pow _ hP)

/-! ### Inner passes and the undo phase -/

theorem foldl_opQ_length (k : ℕ) (l : List ℕ) (X : List ℕ) :
    (l.foldl (opQ k) X).length = X.length := by
  induction l generalizing X with
  | nil => rfl
  | cons b t ih =>
    simp only [List.foldl_cons]
    rw [ih, opQ_length]

theorem innerEnc_length (k : ℕ) (X : List ℕ) : (innerEnc k X).length = X.length :=
  foldl_opQ_length _ _ _

theorem innerDec_length (k : ℕ) (X : List ℕ) : (innerDec k X).length = X.length :=
  foldl_opQ_length _ _ _

theorem innerDec_innerEnc (k : ℕ) (X : List ℕ) : innerDec k (innerEnc k X) = X := by
  unfold innerDec innerEnc
  rw [foldl_opQ_length]
  exact foldl_foldl_rev (opQ k) (opQ k) (fun Y => Y.length = X.length)
    (List.range X.length)
    (fun a b _ ha => by simp only [opQ_length]; exact ha)
    (fun a b hbmem ha => opQ_opQ k a b (by rw [ha]; exact List.mem_range.mp hbmem))
    X rfl

theorem innerEnc_innerDec (k : ℕ) (X : List ℕ) : innerEnc k (innerDec k X) = X := by
  unfold innerDec innerEnc
  rw [foldl_opQ_length]
  have h := foldl_foldl_rev (opQ k) (opQ k) (fun Y => Y.length = X.length)
    (List.range X.length).reverse
    (fun a b _ ha => by simp only [opQ_length]; exact ha)
    (fun a b hbmem ha => opQ_opQ k a b
      (by rw [ha]; exact List.mem_range.mp (List.mem_reverse.mp hbmem)))
    X rfl
  rwa [List.reverse_reverse] at h

theorem innerEnc_bounds (k W : ℕ) (X : List ℕ) (hk : k < W)
    (hb : ∀ x ∈ X, x < 2 ^ W) : ∀ y ∈ innerEnc k X, y < 2 ^ W :=
  foldl_inv (opQ k) (fun Y => ∀ y ∈ Y, y < 2 ^ W) _
    (fun a b _ ha => opQ_bounds k W a b hk ha) X hb

theorem innerDec_bounds (k W : ℕ) (X : List ℕ) (hk : k < W)
    (hb : ∀ x ∈ X, x < 2 ^ W) : ∀ y ∈ innerDec k X, y < 2 ^ W :=
  foldl_inv (opQ k) (fun Y => ∀ y ∈ Y, y < 2 ^ W) _
    (fun a b _ ha => opQ_bounds k W a b hk ha) X hb

theorem undoDec_undoEnc (W : ℕ) (X : List ℕ) : undoDec W (undoEnc W X) = X := by
  unfold undoDec undoEnc ksDec ksEnc
  have h := foldl_foldl_rev (fun Y k => innerEnc k Y) (fun Y k => innerDec k Y)
    (fun _ => True) (List.range' 1 (W - 1)).reverse (fun _ _ _ _ => trivial)
    (fun a b _ _ => innerDec_innerEnc b a) X trivial
  rwa [List.reverse_reverse] at h

theorem undoEnc_undoDec (W : ℕ) (X : List ℕ) : undoEnc W (undoDec W X) = X := by
  unfold undoDec undoEnc ksDec ksEnc
  exact foldl_foldl_rev (fun Y k => innerDec k Y) (fun Y k => innerEnc k Y)
    (fun _ => True) (List.range' 1 (W - 1)) (fun _ _ _ _ => trivial)
    (fun a b _ _ => innerEnc_innerDec b a) X trivial

theorem undoEnc_length (W : ℕ) (X : List ℕ) : (undoEnc W X).length = X.length :=
  foldl_inv (fun Y k => innerEnc k Y) (fun Y => Y.length = X.length) _
    (fun a b _ ha => by simp only [innerEnc_length]; exact ha) X rfl

theorem undoDec_length (W : ℕ) (X : List ℕ) : (undoDec W X).length = X.length :=
  foldl_inv (fun Y k => innerDec k Y) (fun Y => Y.length = X.length) _
    (fun a b _ ha => by simp only [innerDec_length]; exact ha) X rfl

theorem undoEnc_bounds (W : ℕ) (X : List ℕ) (hb : ∀ x ∈ X, x < 2 ^ W) :
    ∀ y ∈ undoEnc W X, y < 2 ^ W :=
  foldl_inv (fun Y k => innerEnc k Y) (fun Y => ∀ y ∈ Y, y < 2 ^ W) _
    (fun a b hbm ha => innerEnc_bounds b W a
      (by have := List.mem_range'_1.mp (List.mem_reverse.mp hbm); omega) ha) X hb

theorem undoDec_bounds (W : ℕ) (X : List ℕ) (hb : ∀ x ∈ X, x < 2 ^ W) :
    ∀ y ∈ undoDec W X, y < 2 ^ W :=
  foldl_inv (fun Y k => innerDec k Y) (fun Y => ∀ y ∈ Y, y < 2 ^ W) _
    (fun a b hbm ha => innerDec_bounds b W a
      (by have := List.mem_range'_1.mp hbm; omega) ha) X hb

/-! ### Gray phase lemmas -/

theorem xor_shiftRight_one (a b : ℕ) : (a ^^^ b) >>> 1 = (a >>> 1) ^^^ (b >>> 1) := by
  simp [Nat.shiftRight_one, Nat.xor_div_two]

theorem shiftRight_one_lt {v f : ℕ} (hv : v < 2 ^ (f + 1)) : v >>> 1 < 2 ^ f := by
  rw [Nat.shiftRight_one]
  omega

theorem gdAux_lt (f : ℕ) : ∀ v, v < 2 ^ f → gdAux f v < 2 ^ f := by
  induction f with
  | zero =>
    intro v hv
    interval_cases v
    simp [gdAux]
  | succ f ih =>
    intro v hv
    show v ^^^ gdAux f (v >>> 1) < 2 ^ (f + 1)
    exact Nat.xor_lt_two_pow hv
      (lt_of_lt_of_le (ih _ (shiftRight_one_lt hv))
        (Nat.pow_le_pow_right (by norm_num) (Nat.le_succ f)))

theorem gdAux_fixed (f : ℕ) : ∀ v, v < 2 ^ f → gdAux f v = v ^^^ (gdAux f v >>> 1) := by
  induction f with
  | zero =>
    intro v hv
    interval_cases v
    simp [gdAux]
  | succ f ih =>
    intro v hv
    show v ^^^ gdAux f (v >>> 1) = v ^^^ ((v ^^^ gdAux f (v >>> 1)) >>> 1)
    rw [xor_shiftRight_one]
    congr 1
    exact ih _ (shiftRight_one_lt hv)

theorem gdAux_grayCode (f : ℕ) : ∀ v, v < 2 ^ f → gdAux f (v ^^^ (v >>> 1)) = v := by
  induction f with
  | zero =>
    intro v hv
    interval_cases v
    simp [gdAux]
  | succ f ih =>
    intro v hv
    show (v ^^^ (v >>> 1)) ^^^ gdAux f ((v ^^^ (v >>> 1)) >>> 1) = v
    rw [xor_shiftRight_one, ih _ (shiftRight_one_lt hv), Nat.xor_cancel_right]

theorem axor_pxor (X : List ℕ) : ∀ a, axor a (pxor a X) = X := by
  induction X with
  | nil => intro a; rfl
  | cons x xs ih =>
    intro a
    show (a ^^^ (a ^^^ x)) :: axor (a ^^^ x) (pxor (a ^^^ x) xs) = x :: xs
    rw [Nat.xor_cancel_left, ih]

theorem pxor_axor (X : List ℕ) : ∀ a b, pxor a (axor b X) = X.map (· ^^^ (a ^^^ b)) := by
  induction X with
  | nil => intro a b; rfl
  | cons x xs ih =>
    intro a b
    show (a ^^^ (b ^^^ x)) :: pxor (a ^^^ (b ^^^ x)) (axor x xs) =
      (x ^^^ (a ^^^ b)) :: xs.map (· ^^^ (a ^^^ b))
    rw [ih]
    have h1 : (a ^^^ (b ^^^ x)) ^^^ x = a ^^^ b := by
      rw [Nat.xor_assoc, Nat.xor_assoc, Nat.xor_self, Nat.xor_zero]
    have h2 : a ^^^ (b ^^^ x) = x ^^^ (a ^^^ b) := by
      rw [Nat.xor_comm b x, ← Nat.xor_assoc, Nat.xor_comm a x, Nat.xor_assoc]
    rw [h1, h2]

theorem axor_map_xor (X : List ℕ) : ∀ a t,
    axor a (X.map (· ^^^ t)) = axor (a ^^^ t) X := by
  induction X with
  | nil => intro a t; rfl
  | cons x xs ih =>
    intro a t
    show (a ^^^ (x ^^^ t)) :: axor (x ^^^ t) (xs.map (· ^^^ t)) =
      ((a ^^^ t) ^^^ x) :: axor x xs
    rw [ih]
    have h1 : (x ^^^ t) ^^^ t = x := Nat.xor_cancel_right _ _
    have h2 : a ^^^ (x ^^^ t) = (a ^^^ t) ^^^ x := by
      rw [Nat.xor_comm x t, ← Nat.xor_assoc]
    rw [h1, h2]

theorem pxor_length (X : List ℕ) : ∀ a, (pxor a X).length = X.length := by
  induction X with
  | nil => intro a; rfl
  | cons x xs ih =>
    intro a
    show (pxor (a ^^^ x) xs).length + 1 = xs.length + 1
    rw [ih]

theorem axor_length (X : List ℕ) : ∀ a, (axor a X).length = X.length := by
  induction X with
  | nil => intro a; rfl
  | cons x xs ih =>
    intro a
    show (axor x xs).length + 1 = xs.length + 1
    rw [ih]

theorem pxor_bounds {W : ℕ} (X : List ℕ) : ∀ a, a < 2 ^ W →
    (∀ x ∈ X, x < 2 ^ W) → ∀ y ∈ pxor a X, y < 2 ^ W := by
  induction X with
  | nil => intro a _ _ y hy; cases hy
  | cons x xs ih =>
    intro a ha hb y hy
    rcases List.mem_cons.mp hy with h | h
    · rw [h]
      exact Nat.xor_lt_two_pow ha (hb x (List.mem_cons_self _ _))
    · exact ih (a ^^^ x) (Nat.xor_lt_two_pow ha (hb x (List.mem_cons_self _ _)))
        (fun z hz => hb z (List.mem_cons_of_mem _ hz)) y h

theorem axor_bounds {W : ℕ} (X : List ℕ) : ∀ a, a < 2 ^ W →
    (∀ x ∈ X, x < 2 ^ W) → ∀ y ∈ axor a X, y < 2 ^ W := by
  induction X with
  | nil => intro a _ _ y hy; cases hy
  | cons x xs ih =>
    intro a ha hb y hy
    rcases List.mem_cons.mp hy with h | h
    · rw [h]
      exact Nat.xor_lt_two_pow ha (hb x (List.mem_cons_self _ _))
    · exact ih x (hb x (List.mem_cons_self _ _))
        (fun z hz => hb z (List.mem_cons_of_mem _ hz)) y h

theorem lastd_mem : ∀ X : List ℕ, X ≠ [] → lastd X ∈ X := by
  intro X
  induction X with
  | nil => intro h; exact absurd rfl h
  | cons x xs ih =>
    intro _
    cases xs with
    | nil => exact List.mem_singleton.mpr rfl
    | cons y ys =>
      exact List.mem_cons_of_mem _ (ih (List.cons_ne_nil _ _))

theorem lastd_lt {W : ℕ} (X : List ℕ) (hb : ∀ x ∈ X, x < 2 ^ W) :
    lastd X < 2 ^ W := by
  cases X with
  | nil => exact Nat.pos_pow_of_pos _ (by norm_num)
  | cons x xs => exact hb _ (lastd_mem _ (List.cons_ne_nil _ _))

theorem lastd_map (f : ℕ → ℕ) : ∀ (X : List ℕ), X ≠ [] →
    lastd (X.map f) = f (lastd X) := by
  intro X
  induction X with
  | nil => intro h; exact absurd rfl h
  | cons x xs ih =>
    intro _
    cases xs with
    | nil => rfl
    | cons y ys =>
      show lastd ((y :: ys).map f) = f (lastd (y :: ys))
      exact ih (List.cons_ne_nil _ _)

theorem grayEnc_length (W : ℕ) (X : List ℕ) : (grayEnc W X).length = X.length := by
  simp [grayEnc, pxor_length]

theorem grayDec_length (X : List ℕ) : (grayDec X).length = X.length := by
  simp [grayDec, axor_length]

theorem grayEnc_bounds (W : ℕ) (X : List ℕ) (hb : ∀ x ∈ X, x < 2 ^ W) :
    ∀ y ∈ grayEnc W X, y < 2 ^ W := by
  intro y hy
  simp only [grayEnc, List.mem_map] at hy
  obtain ⟨z, hz, rfl⟩ := hy
  have hzb : z < 2 ^ W :=
    pxor_bounds X 0 (Nat.pos_pow_of_pos _ (by norm_num)) hb z hz
  have ht : gdAux W (lastd (pxor 0 X)) >>> 1 < 2 ^ W := by
    have h1 : gdAux W (lastd (pxor 0 X)) < 2 ^ W :=
      gdAux_lt W _ (lastd_lt _ (pxor_bounds X 0 (Nat.pos_pow_of_pos _ (by norm_num)) hb))
    calc gdAux W (lastd (pxor 0 X)) >>> 1 ≤ gdAux W (lastd (pxor 0 X)) := by
          rw [Nat.shiftRight_one]; exact Nat.div_le_self _ _
      _ < 2 ^ W := h1
  exact Nat.xor_lt_two_pow hzb ht

theorem grayDec_bounds (W : ℕ) (X : List ℕ) (hb : ∀ x ∈ X, x < 2 ^ W) :
    ∀ y ∈ grayDec X, y < 2 ^ W := by
  have hu : lastd X >>> 1 < 2 ^ W := by
    calc lastd X >>> 1 ≤ lastd X := by
          rw [Nat.shiftRight_one]; exact Nat.div_le_self _ _
      _ < 2 ^ W := lastd_lt _ hb
  exact axor_bounds X _ hu hb

theorem grayDec_grayEnc (W : ℕ) (X : List ℕ) (hb : ∀ x ∈ X, x < 2 ^ W) :
    grayDec (grayEnc W X) = X := by
  cases X with
  | nil => rfl
  | cons x xs =>
    simp only [grayEnc, grayDec]
    have hYne : pxor 0 (x :: xs) ≠ [] := by
      show (0 ^^^ x) :: pxor (0 ^^^ x) xs ≠ []
      exact List.cons_ne_nil _ _
    rw [lastd_map _ _ hYne]
    rw [axor_map_xor]
    have hv : lastd (pxor 0 (x :: xs)) < 2 ^ W :=
      lastd_lt _ (pxor_bounds _ 0 (Nat.pos_pow_of_pos _ (by norm_num)) hb)
    have h1 : lastd (pxor 0 (x :: xs)) ^^^ gdAux W (lastd (pxor 0 (x :: xs))) >>> 1 =
        gdAux W (lastd (pxor 0 (x :: xs))) := (gdAux_fixed W _ hv).symm
    rw [h1, Nat.xor_self]
    exact axor_pxor _ 0

theorem grayEnc_grayDec (W : ℕ) (X : List ℕ) (hb : ∀ x ∈ X, x < 2 ^ W) :
    grayEnc W (grayDec X) = X := by
  cases X with
  | nil => rfl
  | cons x xs =>
    simp only [grayEnc, grayDec]
    rw [pxor_axor, Nat.zero_xor]
    rw [lastd_map _ _ (List.cons_ne_nil _ _)]
    rw [gdAux_grayCode W _ (lastd_lt _ hb)]
    rw [List.map_map]
    have : ((· ^^^ (lastd (x :: xs) >>> 1)) ∘ (· ^^^ (lastd (x :: xs) >>> 1))) =
        fun z : ℕ => z := by
      funext z
      simp [Nat.xor_cancel_right]
    rw [this]
    exact List.map_id _

/-! ### Hilbert round trip -/

theorem hilbertEncode_lt (W : ℕ) (L : List ℕ) :
    hilbertEncode W L < 2 ^ (L.length * W) := by
  have h := mortonEncode_lt W (grayEnc W (undoEnc W L))
  rwa [grayEnc_length, undoEnc_length] at h

theorem hilbertDecode_length (W N Z : ℕ) : (hilbertDecode W N Z).length = N := by
  rw [hilbertDecode, undoDec_length, grayDec_length, mortonDecode_length]

theorem hilbertDecode_bounds (W N Z : ℕ) : ∀ x ∈ hilbertDecode W N Z, x < 2 ^ W :=
  undoDec_bounds _ _ (grayDec_bounds _ _ (mortonDecode_bounds W N Z))

theorem hilbertDecode_hilbertEncode (W : ℕ) (L : List ℕ)
    (hb : ∀ x ∈ L, x < 2 ^ W) :
    hilbertDecode W L.length (hilbertEncode W L) = L := by
  unfold hilbertDecode hilbertEncode
  have hub : ∀ y ∈ undoEnc W L, y < 2 ^ W := undoEnc_bounds W L hb
  have hgb : ∀ y ∈ grayEnc W (undoEnc W L), y < 2 ^ W := grayEnc_bounds W _ hub
  have hlen : (grayEnc W (undoEnc W L)).length = L.length := by
    rw [grayEnc_length, undoEnc_length]
  rw [← hlen, mortonDecode_mortonEncode _ _ hgb, grayDec_grayEnc _ _ hub,
    undoDec_undoEnc]

theorem hilbertEncode_hilbertDecode (W N Z : ℕ) (hN : 0 < N)
    (hZ : Z < 2 ^ (N * W)) :
    hilbertEncode W (hilbertDecode W N Z) = Z := by
  unfold hilbertDecode hilbertEncode
  have hmb : ∀ y ∈ mortonDecode W N Z, y < 2 ^ W := mortonDecode_bounds W N Z
  rw [undoEnc_undoDec, grayEnc_grayDec _ _ hmb]
  exact mortonEncode_mortonDecode W N Z hN hZ

/-! ### Promotion order lemmas -/

theorem signed_reinterpret_mono (m a b : ℤ) (hm : 0 < m)
    (ha1 : -m ≤ a) (ha2 : a < m) (hb1 : -m ≤ b) (hb2 : b < m)
    (hsign : (0 ≤ a ∧ 0 ≤ b) ∨ (a < 0 ∧ b < 0)) :
    (a ≤ b ↔ (a % (2 * m)).toNat ≤ (b % (2 * m)).toNat) := by
  have hmod : ∀ x : ℤ, -m ≤ x → x < m → x % (2 * m) = if 0 ≤ x then x else x + 2 * m := by
    intro x h1 h2
    by_cases hx : 0 ≤ x
    · rw [if_pos hx]
      exact Int.emod_eq_of_lt hx (by omega)
    · rw [if_neg hx]
      have h3 : (x + 2 * m * 1) % (2 * m) = x % (2 * m) :=
        Int.add_mul_emod_self_left x (2 * m) 1
      rw [← h3, Int.mul_one, Int.emod_eq_of_lt (by omega) (by omega)]
  rw [hmod a ha1 ha2, hmod b hb1 hb2]
  rcases hsign with ⟨h1, h2⟩ | ⟨h1, h2⟩
  · rw [if_pos h1, if_pos h2]
    omega
  · rw [if_neg (by omega), if_neg (by omega)]
    omega

theorem div_eq_zero_lt {a m : ℕ} (hm : 0 < m) (h : a / m = 0) : a < m := by
  by_contra hc
  push_neg at hc
  have h1 : 1 ≤ a / m := (Nat.one_le_div_iff hm).mpr hc
  omega

theorem div_eq_one_bounds {a m : ℕ} (hm : 0 < m) (h : a / m = 1) (h2 : a < 2 * m) :
    m ≤ a ∧ a - m < m := by
  constructor
  · by_contra hc
    push_neg at hc
    rw [Nat.div_eq_of_lt hc] at h
    omega
  · omega

theorem mod_of_div_eq_one {a m : ℕ} (hm : 0 < m) (h : a / m = 1) (h2 : a < 2 * m) :
    a % m = a - m := by
  obtain ⟨hge, hlt⟩ := div_eq_one_bounds hm h h2
  rw [Nat.mod_eq_sub_mod hge, Nat.mod_eq_of_lt hlt]

/-! ## Claim theorems -/

/-- C1: for every legal descriptor (kind ∈ {HILBERT, MORTON}, lane width
`W ∈ {8,16,32,64}`, lane count `N` with `N·W ≤ 128`) and every tuple `L` over
the promoted-lane domain `[0, 2^W)^N`, `decode (encode L) = L`; and for every
code word `Z ∈ [0, 2^(N·W))`, `encode (decode Z) = Z`. -/
theorem claim1_round_trip (k : CurveKind) (W N : ℕ)
    (hW : W = 8 ∨ W = 16 ∨ W = 32 ∨ W = 64) (hN : 1 ≤ N) (hNW : N * W ≤ 128)
    (L : List ℕ) (hL : L.length = N) (hb : ∀ x ∈ L, x < 2 ^ W)
    (Z : ℕ) (hZ : Z < 2 ^ (N * W)) :
    curveDecode k W N (curveEncode k W L) = L ∧
      curveEncode k W (curveDecode k W N Z) = Z := by
  subst hL
  cases k
  · exact ⟨hilbertDecode_hilbertEncode W L hb,
      hilbertEncode_hilbertDecode W _ Z (by omega) hZ⟩
  · exact ⟨mortonDecode_mortonEncode W L hb,
      mortonEncode_mortonDecode W _ Z (by omega) hZ⟩

/-- Witness for C1 at the repository fixture: `W = 8`, `N = 3`,
`L = [1,2,3]`, `Z = 22`, Hilbert kind. -/
theorem claim1_round_trip_witness :
    curveDecode CurveKind.hilbert 8 3 (curveEncode CurveKind.hilbert 8 [1, 2, 3]) =
      [1, 2, 3] ∧
    curveEncode CurveKind.hilbert 8 (curveDecode CurveKind.hilbert 8 3 22) = 22 :=
  claim1_round_trip CurveKind.hilbert 8 3 (by norm_num) (by norm_num) (by norm_num)
    [1, 2, 3] rfl (by decide) 22 (by norm_num)

/-- C2 counterexample: the spec's layout claims bit `i·N + j` of
`morton_encode L` is bit `i` of `L[j]`; at `i = 1`, `j = 0` on the
repository's own fixture `morton_encode([1,2,3]) = 29` the two differ
(bit 3 of 29 is 1 while bit 1 of lane 0 = 1 is 0). -/
theorem claim2_counterexample :
    mortonEncode 8 [1, 2, 3] = 29 ∧
      ¬(bitAt (mortonEncode 8 [1, 2, 3]) (1 * 3 + 0) = bitAt 1 1) := by
  constructor
  · decide
  · decide

/-- C2 amended: bit `i·N + (N−1−j)` of `morton_encode L` equals bit `i` of
`L[j]`; lane 0 (the first array element) occupies the output bit positions
`{N−1, 2N−1, …}`, the top of each `N`-bit group. -/
theorem claim2_morton_layout (W : ℕ) (hW : W = 8 ∨ W = 16 ∨ W = 32 ∨ W = 64)
    (L : List ℕ) (N i j : ℕ) (hL : L.length = N) (hi : i < W) (hj : j < N) :
    bitAt (mortonEncode W L) (i * N + (N - 1 - j)) = bitAt (L.getD j 0) i := by
  subst hL
  exact bitAt_mortonEncode W L i j hi hj

/-- Witness for the amended C2 at the repository fixture `[1,2,3]`, `W = 8`,
`i = 1`, `j = 0`. -/
theorem claim2_morton_layout_witness :
    bitAt (mortonEncode 8 [1, 2, 3]) (1 * 3 + (3 - 1 - 0)) = bitAt 1 1 :=
  claim2_morton_layout 8 (by norm_num) [1, 2, 3] 3 1 0 rfl (by norm_num) (by norm_num)

/-- C3 counterexample: the code's signed promotion is the unchanged
two's-complement pattern — the repository's fixture `morton_encode([1,2,3]
::tinyint[3]) = 29` is reproduced by the identity reinterpretation while the
spec's top-bit flip would produce 14680093 — and that promotion is not
monotone: `-1 ≤ 0` but `promote(-1) = 255 > 0 = promote(0)`. -/
theorem claim3_counterexample :
    mortonEncode 8 (([1, 2, 3] : List ℤ).map (codePromoteSigned 8)) = 29 ∧
    mortonEncode 8 (([1, 2, 3] : List ℤ).map (specPromoteSigned 8)) = 14680093 ∧
    ¬(((-1 : ℤ) ≤ 0) ↔ codePromoteSigned 8 (-1) ≤ codePromoteSigned 8 0) := by
  refine ⟨by decide, by decide, ?_⟩
  decide

/-- C3 amended: promotion is the identity on the lane's bit pattern for every
source type. It is monotone for unsigned integers; for signed integers it is
monotone on pairs of equal sign; for floats (excluding NaN) it is monotone on
pairs of non-negative patterns and order-reversing on pairs of negative
patterns; in particular a signed lane is not top-bit flipped. -/
theorem claim3_amended :
    (∀ W a b : ℕ, a ≤ b ↔ codePromoteUnsigned W a ≤ codePromoteUnsigned W b) ∧
    (∀ W : ℕ, (W = 8 ∨ W = 16 ∨ W = 32 ∨ W = 64) → ∀ a b : ℤ,
      -(2 ^ (W - 1) : ℤ) ≤ a → a < 2 ^ (W - 1) →
      -(2 ^ (W - 1) : ℤ) ≤ b → b < 2 ^ (W - 1) →
      ((0 ≤ a ∧ 0 ≤ b) ∨ (a < 0 ∧ b < 0)) →
      (a ≤ b ↔ codePromoteSigned W a ≤ codePromoteSigned W b)) ∧
    (∀ W a b : ℕ, a / 2 ^ (W - 1) = 0 → b / 2 ^ (W - 1) = 0 →
      (floatLe W a b ↔ codePromoteFloat W a ≤ codePromoteFloat W b)) ∧
    (∀ W a b : ℕ, 1 ≤ W → a < 2 ^ W → b < 2 ^ W →
      a / 2 ^ (W - 1) = 1 → b / 2 ^ (W - 1) = 1 →
      (floatLe W a b ↔ codePromoteFloat W b ≤ codePromoteFloat W a)) := by
  refine ⟨fun W a b => Iff.rfl, ?_, ?_, ?_⟩
  · intro W hW a b ha1 ha2 hb1 hb2 hsign
    unfold codePromoteSigned signedToBits
    have hpow : ((2 : ℤ) ^ W) = 2 * 2 ^ (W - 1) := by
      rcases hW with rfl | rfl | rfl | rfl <;> norm_num
    rw [hpow]
    exact signed_reinterpret_mono (2 ^ (W - 1)) a b (by positivity) ha1 ha2 hb1 hb2 hsign
  · intro W a b hsa hsb
    have hm : 0 < 2 ^ (W - 1) := Nat.pos_pow_of_pos _ (by norm_num)
    have ha : a < 2 ^ (W - 1) := div_eq_zero_lt hm hsa
    have hb : b < 2 ^ (W - 1) := div_eq_zero_lt hm hsb
    unfold floatLe codePromoteFloat
    rw [Nat.mod_eq_of_lt ha, Nat.mod_eq_of_lt hb, hsa, hsb]
    constructor
    · rintro (⟨h1, h2⟩ | ⟨h1, h2⟩ | ⟨h1, h2, h3⟩ | ⟨h1, h2, h3⟩) <;> omega
    · intro h
      exact Or.inr (Or.inr (Or.inl ⟨rfl, rfl, h⟩))
  · intro W a b hW ha hb hsa hsb
    have hm : 0 < 2 ^ (W - 1) := Nat.pos_pow_of_pos _ (by norm_num)
    have hpow : (2 : ℕ) ^ W = 2 * 2 ^ (W - 1) := by
      conv_lhs => rw [show W = (W - 1) + 1 by omega]
      rw [Nat.pow_succ]
      ring
    rw [hpow] at ha hb
    have hma := mod_of_div_eq_one hm hsa ha
    have hmb := mod_of_div_eq_one hm hsb hb
    obtain ⟨hage, _⟩ := div_eq_one_bounds hm hsa ha
    obtain ⟨hbge, _⟩ := div_eq_one_bounds hm hsb hb
    unfold floatLe codePromoteFloat
    rw [hma, hmb, hsa, hsb]
    constructor
    · rintro (⟨h1, h2⟩ | ⟨h1, h2⟩ | ⟨h1, h2, h3⟩ | ⟨h1, h2, h3⟩) <;> omega
    · intro h
      exact Or.inr (Or.inr (Or.inr ⟨rfl, rfl, by omega⟩))

/-- Witness for the amended C3: signed pair `(-3, -2)` at `W = 8`, float
non-negative pair at `W = 32`, float negative pair at `W = 32`. -/
theorem claim3_amended_witness :
    ((-3 : ℤ) ≤ -2 ↔ codePromoteSigned 8 (-3) ≤ codePromoteSigned 8 (-2)) ∧
    (floatLe 32 0x3F800000 0x40A00000 ↔
      codePromoteFloat 32 0x3F800000 ≤ codePromoteFloat 32 0x40A00000) ∧
    (floatLe 32 0xC0A00000 0xBF800000 ↔
      codePromoteFloat 32 0xBF800000 ≤ codePromoteFloat 32 0xC0A00000) :=
  ⟨claim3_amended.2.1 8 (by norm_num) (-3) (-2) (by norm_num) (by norm_num)
      (by norm_num) (by norm_num) (Or.inr ⟨by norm_num, by norm_num⟩),
    claim3_amended.2.2.1 32 0x3F800000 0x40A00000 (by norm_num) (by norm_num),
    claim3_amended.2.2.2 32 0xC0A00000 0xBF800000 (by norm_num) (by norm_num)
      (by norm_num) (by norm_num) (by norm_num)⟩

set_option maxRecDepth 40000 in
/-- C6: for `N = 2` and every lane width `W ∈ {8,16,32,64}` the Hilbert
encoder matches the standard 2-D Hilbert curve with axis 0 (the first array
element) as the first coordinate on the 16 small inputs, and the 5×5 grid of
`i8[2]` inputs yields the repository's Hilbert fixture values. -/
theorem claim6_hilbert_fixtures :
    (∀ W : ℕ, (W = 8 ∨ W = 16 ∨ W = 32 ∨ W = 64) →
      hilbertEncode W [0, 0] = 0 ∧ hilbertEncode W [1, 0] = 1 ∧
      hilbertEncode W [1, 1] = 2 ∧ hilbertEncode W [0, 1] = 3 ∧
      hilbertEncode W [0, 2] = 4 ∧ hilbertEncode W [0, 3] = 5 ∧
      hilbertEncode W [1, 3] = 6 ∧ hilbertEncode W [1, 2] = 7 ∧
      hilbertEncode W [2, 2] = 8 ∧ hilbertEncode W [2, 3] = 9 ∧
      hilbertEncode W [3, 3] = 10 ∧ hilbertEncode W [3, 2] = 11 ∧
      hilbertEncode W [3, 1] = 12 ∧ hilbertEncode W [2, 1] = 13 ∧
      hilbertEncode W [2, 0] = 14 ∧ hilbertEncode W [3, 0] = 15) ∧
    ((List.range 5).map fun a => (List.range 5).map fun b =>
        hilbertEncode 8 [codePromoteSigned 8 (a : ℤ), codePromoteSigned 8 (b : ℤ)]) =
      [[0, 3, 4, 5, 58], [1, 2, 7, 6, 57], [14, 13, 8, 9, 54],
        [15, 12, 11, 10, 53], [16, 17, 30, 31, 32]] := by
  constructor
  · intro W hW
    rcases hW with rfl | rfl | rfl | rfl <;> decide
  · decide

/-- Witness for C6: the small table at `W = 16`, entry `(2, 3) ↦ 9`. -/
theorem claim6_hilbert_fixtures_witness : hilbertEncode 16 [2, 3] = 9 :=
  (claim6_hilbert_fixtures.1 16 (by norm_num)).2.2.2.2.2.2.2.2.2.1

/-! ### Bridge helper lemmas -/

theorem extractRow_of_mem_none {α : Type} (lanes : List (Option α))
    (h : none ∈ lanes) : extractRow lanes = none := by
  induction lanes with
  | nil => cases h
  | cons l rest ih =>
    cases l with
    | none => rfl
    | some x =>
      rcases List.mem_cons.mp h with h1 | h1
      · cases h1
      · show (extractRow rest).map (x :: ·) = none
        rw [ih h1]
        rfl

theorem decodeBindValue_float (k : CurveKind) (C np : ℕ) (u : Bool)
    (h0 : np ≠ 0) :
    lindelDecodeToArrayBind k C (BindArg.value np) (BindArg.value true)
        (BindArg.value u) =
      (if C = 32 then Except.ok ⟨k, ElemRepr.f32, 1⟩
       else if C = 64 then
         if np = 1 then Except.ok ⟨k, ElemRepr.f64, 1⟩
         else if np = 2 then Except.ok ⟨k, ElemRepr.f32, 2⟩
         else Except.error "Expected 1 or 2 parts for UBIGINT"
       else if C = 128 then
         if np = 2 then Except.ok ⟨k, ElemRepr.f64, 2⟩
         else if 3 ≤ np ∧ np ≤ 4 then Except.ok ⟨k, ElemRepr.f32, np⟩
         else Except.error "Expected 2-4 parts for UHUGEINT"
       else Except.error "Expected UINTEGER, UBIGINT, or UHUGEINT") := by
  simp only [lindelDecodeToArrayBind, getFoldable]
  rw [if_neg h0, if_pos trivial]

set_option maxRecDepth 40000 in
/-- C4 (code bug): the claim says each encode function always invokes the
codec of its own kind, for every element type and admissible lane count.
The FLOAT length-4 arm of `lindelEncodeArrayFunc` instead calls
`hilbert_encode_u32_var` regardless of the bound kind, so `morton_encode`
on a FLOAT[4] row produces the Hilbert code word — shown here on the raw
bit patterns of `[1.0, 2.0, 3.0, 4.0]::FLOAT[4]` — which differs from the
Morton code word; on FLOAT length 3 the kind's own codec is invoked. -/
theorem claim4_float4_divergence :
    lindelEncodeRow CurveKind.morton ElemRepr.f32 4
        [0x3F800000, 0x40000000, 0x40400000, 0x40800000] =
      hilbertEncode 32 [0x3F800000, 0x40000000, 0x40400000, 0x40800000] ∧
    lindelEncodeRow CurveKind.morton ElemRepr.f32 4
        [0x3F800000, 0x40000000, 0x40400000, 0x40800000] ≠
      mortonEncode 32 [0x3F800000, 0x40000000, 0x40400000, 0x40800000] ∧
    lindelEncodeRow CurveKind.morton ElemRepr.f32 3
        [0x3F800000, 0x40000000, 0x40400000] =
      mortonEncode 32 [0x3F800000, 0x40000000, 0x40400000] :=
  ⟨rfl, by decide, rfl⟩

/-- C5: for every element type of lane width W ∈ {8,16,32,64} and every
lane count N, the transcribed encode bind succeeds exactly on the rows of
the claimed table (W = 8: 1→8, 2→16, 3–4→32, 5–8→64, 9–16→128; W = 16:
1→16, 2→32, 3–4→64, 5–8→128; W = 32: 1→32, 2→64, 3–4→128; W = 64: 1→64,
2→128), the bound output width equals N·W rounded up to the smallest
standard width, and every (W, N) outside the rows is rejected at bind time
with an error. -/
theorem claim5_encode_bind_table (r : ElemRepr) (N c : ℕ) :
    (lindelEncodeArrayBind r N = Except.ok c ↔
      ((reprWidth r = 8 ∧ N = 1 ∧ c = 8) ∨ (reprWidth r = 8 ∧ N = 2 ∧ c = 16) ∨
       (reprWidth r = 8 ∧ 3 ≤ N ∧ N ≤ 4 ∧ c = 32) ∨
       (reprWidth r = 8 ∧ 5 ≤ N ∧ N ≤ 8 ∧ c = 64) ∨
       (reprWidth r = 8 ∧ 9 ≤ N ∧ N ≤ 16 ∧ c = 128) ∨
       (reprWidth r = 16 ∧ N = 1 ∧ c = 16) ∨ (reprWidth r = 16 ∧ N = 2 ∧ c = 32) ∨
       (reprWidth r = 16 ∧ 3 ≤ N ∧ N ≤ 4 ∧ c = 64) ∨
       (reprWidth r = 16 ∧ 5 ≤ N ∧ N ≤ 8 ∧ c = 128) ∨
       (reprWidth r = 32 ∧ N = 1 ∧ c = 32) ∨ (reprWidth r = 32 ∧ N = 2 ∧ c = 64) ∨
       (reprWidth r = 32 ∧ 3 ≤ N ∧ N ≤ 4 ∧ c = 128) ∨
       (reprWidth r = 64 ∧ N = 1 ∧ c = 64) ∨ (reprWidth r = 64 ∧ N = 2 ∧ c = 128))) ∧
    (lindelEncodeArrayBind r N = Except.ok c → stdCeil (N * reprWidth r) = some c) := by
  by_cases hN : N ≤ 16
  · cases r <;> interval_cases N <;>
      refine ⟨?_, ?_⟩ <;> (simp [lindelEncodeArrayBind, reprWidth, stdCeil]; try omega)
  · push_neg at hN
    have hng : ∀ c2 : ℕ, ¬(lindelEncodeArrayBind r N = Except.ok c2) := by
      intro c2 h
      cases r <;>
        (simp only [lindelEncodeArrayBind] at h
         repeat rw [if_neg (by omega)] at h
         simp at h)
    refine ⟨⟨fun h => absurd h (hng c), fun h => ?_⟩, fun h => absurd h (hng c)⟩
    exfalso
    rcases h with h | h | h | h | h | h | h | h | h | h | h | h | h | h <;> omega

/-- C7 counterexample: with `return_float = true` and 5 requested parts a
UINTEGER code word binds successfully — to FLOAT[1], the part count being
ignored — although no pair with N = 5 lies in the claimed float-legal set
of six (W, N) pairs, so the claim demands a bind-time error here. -/
theorem claim7_counterexample :
    lindelDecodeToArrayBind CurveKind.hilbert 32 (BindArg.value 5)
        (BindArg.value true) (BindArg.value false) =
      Except.ok ⟨CurveKind.hilbert, ElemRepr.f32, 1⟩ := rfl

/-- C7 amended: with `return_float = true` and a non-zero part count the
decode bind succeeds exactly for a UINTEGER code word (any part count — the
requested count is ignored and FLOAT[1] is returned), a UBIGINT code word
with 1 part (DOUBLE[1]) or 2 parts (FLOAT[2]), and a UHUGEINT code word
with 2 parts (DOUBLE[2]) or 3–4 parts (FLOAT[parts]); every other input
width or part count raises an error at bind time. -/
theorem claim7_decode_float_bind (k : CurveKind) (C np : ℕ) (u : Bool)
    (hnp : 1 ≤ np) :
    ((∃ d : DecodeBound, lindelDecodeToArrayBind k C (BindArg.value np)
        (BindArg.value true) (BindArg.value u) = Except.ok d) ↔
      (C = 32 ∨ (C = 64 ∧ np ≤ 2) ∨ (C = 128 ∧ 2 ≤ np ∧ np ≤ 4))) ∧
    (C = 32 →
      lindelDecodeToArrayBind k C (BindArg.value np) (BindArg.value true)
        (BindArg.value u) = Except.ok ⟨k, ElemRepr.f32, 1⟩) ∧
    (C = 64 → np = 1 →
      lindelDecodeToArrayBind k C (BindArg.value np) (BindArg.value true)
        (BindArg.value u) = Except.ok ⟨k, ElemRepr.f64, 1⟩) ∧
    (C = 64 → np = 2 →
      lindelDecodeToArrayBind k C (BindArg.value np) (BindArg.value true)
        (BindArg.value u) = Except.ok ⟨k, ElemRepr.f32, 2⟩) ∧
    (C = 128 → np = 2 →
      lindelDecodeToArrayBind k C (BindArg.value np) (BindArg.value true)
        (BindArg.value u) = Except.ok ⟨k, ElemRepr.f64, 2⟩) ∧
    (C = 128 → 3 ≤ np → np ≤ 4 →
      lindelDecodeToArrayBind k C (BindArg.value np) (BindArg.value true)
        (BindArg.value u) = Except.ok ⟨k, ElemRepr.f32, np⟩) := by
  rw [decodeBindValue_float k C np u (by omega)]
  refine ⟨⟨fun hd => ?_, fun hc => ?_⟩, fun h32 => ?_, fun h64 h1 => ?_,
    fun h64 h2 => ?_, fun h128 h2 => ?_, fun h128 h3 h4 => ?_⟩
  · obtain ⟨d, hd⟩ := hd
    split_ifs at hd <;> first | omega | cases hd
  · rcases hc with h | ⟨h, h2⟩ | ⟨h, h2, h3⟩
    · subst h
      exact ⟨⟨k, ElemRepr.f32, 1⟩, rfl⟩
    · subst h
      rcases (by omega : np = 1 ∨ np = 2) with rfl | rfl
      · exact ⟨⟨k, ElemRepr.f64, 1⟩, rfl⟩
      · exact ⟨⟨k, ElemRepr.f32, 2⟩, rfl⟩
    · subst h
      rcases (by omega : np = 2 ∨ np = 3 ∨ np = 4) with rfl | rfl | rfl
      · exact ⟨⟨k, ElemRepr.f64, 2⟩, rfl⟩
      · exact ⟨⟨k, ElemRepr.f32, 3⟩, rfl⟩
      · exact ⟨⟨k, ElemRepr.f32, 4⟩, rfl⟩
  · subst h32
    rfl
  · subst h64
    subst h1
    rfl
  · subst h64
    subst h2
    rfl
  · subst h128
    subst h2
    rfl
  · subst h128
    rcases (by omega : np = 3 ∨ np = 4) with rfl | rfl <;> rfl

/-- C8: in the transcribed batch loops a NULL input row produces a NULL
output row with no codec invoked — for encode (first conjunct) and decode
(third conjunct) alike — while a NULL lane inside any non-NULL encode row
throws the `InvalidInputException` whose message says the array can not
contain NULL values, aborting the whole batch. -/
theorem claim8_batch_null_policy :
    (∀ (k : CurveKind) (r : ElemRepr) (n : ℕ)
        (batch : List (Option (List (Option ℕ)))) (out : List (Option ℕ)),
        lindelEncodeArrayFunc k r n batch = Except.ok out →
        ∀ i : ℕ, batch[i]? = some none → out[i]? = some none) ∧
    (∀ (k : CurveKind) (r : ElemRepr) (n : ℕ)
        (batch : List (Option (List (Option ℕ)))),
        (∃ lanes, some lanes ∈ batch ∧ none ∈ lanes) →
        lindelEncodeArrayFunc k r n batch =
          Except.error "hilbert_encode: array can not contain NULL values") ∧
    (∀ (k : CurveKind) (base : ElemRepr) (nParts : ℕ) (zs : List (Option ℕ))
        (i : ℕ), zs[i]? = some none →
        (lindelDecodeArrayFun k base nParts zs)[i]? = some none) := by
  refine ⟨?_, ?_, ?_⟩
  · intro k r n batch
    induction batch with
    | nil =>
      intro out h i hi
      rw [List.getElem?_nil] at hi
      cases hi
    | cons row rest ih =>
      intro out h i hi
      cases row with
      | none =>
        rcases hrec : lindelEncodeArrayFunc k r n rest with e | out2
        · rw [show lindelEncodeArrayFunc k r n (none :: rest) =
              (lindelEncodeArrayFunc k r n rest).map (fun o => none :: o) from rfl,
            hrec] at h
          cases h
        · rw [show lindelEncodeArrayFunc k r n (none :: rest) =
              (lindelEncodeArrayFunc k r n rest).map (fun o => none :: o) from rfl,
            hrec] at h
          injection h with h2
          subst h2
          show (none :: out2)[i]? = some none
          cases i with
          | zero => rw [List.getElem?_cons_zero]
          | succ j =>
            rw [List.getElem?_cons_succ] at hi ⊢
            exact ih out2 hrec j hi
      | some lanes =>
        rcases hex : extractRow lanes with _ | vs
        · rw [show lindelEncodeArrayFunc k r n (some lanes :: rest) =
              match extractRow lanes with
              | none => Except.error "hilbert_encode: array can not contain NULL values"
              | some vs => (lindelEncodeArrayFunc k r n rest).map
                  (fun out => some (lindelEncodeRow k r n vs) :: out) from rfl,
            hex] at h
          cases h
        · rcases hrec : lindelEncodeArrayFunc k r n rest with e | out2
          · rw [show lindelEncodeArrayFunc k r n (some lanes :: rest) =
                match extractRow lanes with
                | none => Except.error "hilbert_encode: array can not contain NULL values"
                | some vs => (lindelEncodeArrayFunc k r n rest).map
                    (fun out => some (lindelEncodeRow k r n vs) :: out) from rfl,
              hex, hrec] at h
            cases h
          · rw [show lindelEncodeArrayFunc k r n (some lanes :: rest) =
                match extractRow lanes with
                | none => Except.error "hilbert_encode: array can not contain NULL values"
                | some vs => (lindelEncodeArrayFunc k r n rest).map
                    (fun out => some (lindelEncodeRow k r n vs) :: out) from rfl,
              hex, hrec] at h
            injection h with h2
            subst h2
            show (some (lindelEncodeRow k r n vs) :: out2)[i]? = some none
            cases i with
            | zero =>
              rw [List.getElem?_cons_zero] at hi
              injection hi with h3
              cases h3
            | succ j =>
              rw [List.getElem?_cons_succ] at hi ⊢
              exact ih out2 hrec j hi
  · intro k r n batch
    induction batch with
    | nil =>
      rintro ⟨lanes, hmem, -⟩
      cases hmem
    | cons row rest ih =>
      rintro ⟨lanes, hmem, hnull⟩
      rcases List.mem_cons.mp hmem with h1 | h1
      · rw [← h1]
        show (match extractRow lanes with
          | none => Except.error "hilbert_encode: array can not contain NULL values"
          | some vs => (lindelEncodeArrayFunc k r n rest).map
              (fun out => some (lindelEncodeRow k r n vs) :: out)) =
          Except.error "hilbert_encode: array can not contain NULL values"
        rw [extractRow_of_mem_none lanes hnull]
      · have hrest := ih ⟨lanes, h1, hnull⟩
        cases row with
        | none =>
          show (lindelEncodeArrayFunc k r n rest).map (fun o => none :: o) =
            Except.error "hilbert_encode: array can not contain NULL values"
          rw [hrest]
          rfl
        | some lanes2 =>
          rcases hex : extractRow lanes2 with _ | vs
          · show (match extractRow lanes2 with
              | none => Except.error "hilbert_encode: array can not contain NULL values"
              | some vs => (lindelEncodeArrayFunc k r n rest).map
                  (fun out => some (lindelEncodeRow k r n vs) :: out)) =
              Except.error "hilbert_encode: array can not contain NULL values"
            rw [hex]
          · show (match extractRow lanes2 with
              | none => Except.error "hilbert_encode: array can not contain NULL values"
              | some vs => (lindelEncodeArrayFunc k r n rest).map
                  (fun out => some (lindelEncodeRow k r n vs) :: out)) =
              Except.error "hilbert_encode: array can not contain NULL values"
            rw [hex, hrest]
            rfl
  · intro k base nParts zs
    induction zs with
    | nil =>
      intro i hi
      rw [List.getElem?_nil] at hi
      cases hi
    | cons z rest ih =>
      intro i hi
      cases z with
      | none =>
        show (none :: lindelDecodeArrayFun k base nParts rest)[i]? = some none
        cases i with
        | zero => rw [List.getElem?_cons_zero]
        | succ j =>
          rw [List.getElem?_cons_succ] at hi ⊢
          exact ih j hi
      | some z0 =>
        show (some (lindelDecodeRow k base nParts z0) ::
          lindelDecodeArrayFun k base nParts rest)[i]? = some none
        cases i with
        | zero =>
          rw [List.getElem?_cons_zero] at hi
          injection hi with h3
          cases h3
        | succ j =>
          rw [List.getElem?_cons_succ] at hi ⊢
          exact ih j hi

/-- Witness for C8: a NULL first encode row stays NULL, a NULL lane raises
the error, and a NULL decode row stays NULL. -/
theorem claim8_batch_null_policy_witness :
    ([none, some [some 1, some 2]] : List (Option (List (Option ℕ))))[0]? =
        some none →
      (lindelEncodeArrayFunc CurveKind.morton ElemRepr.u8 2
          [none, some [some 1, some 2]] =
          Except.ok [none,
            some (lindelEncodeRow CurveKind.morton ElemRepr.u8 2 [1, 2])] →
        ([none, some (lindelEncodeRow CurveKind.morton ElemRepr.u8 2 [1, 2])] :
            List (Option ℕ))[0]? = some none) ∧
      lindelEncodeArrayFunc CurveKind.morton ElemRepr.u8 2 [some [some 1, none]] =
        Except.error "hilbert_encode: array can not contain NULL values" ∧
      (lindelDecodeArrayFun CurveKind.morton ElemRepr.u8 2 [none])[0]? = some none :=
  fun h =>
    ⟨fun hok =>
      claim8_batch_null_policy.1 CurveKind.morton ElemRepr.u8 2 _ _ hok 0 h,
     claim8_batch_null_policy.2.1 CurveKind.morton ElemRepr.u8 2 _ ⟨[some 1, none],
       List.mem_singleton.mpr rfl, List.mem_cons_of_mem _ (List.mem_singleton.mpr rfl)⟩,
     claim8_batch_null_policy.2.2 CurveKind.morton ElemRepr.u8 2 [none] 0 (by simp)⟩

/-- C9: the transcribed decode bind succeeds only when arguments 2–4 fold
to non-NULL constants and the part count is non-zero; a non-foldable or
NULL argument raises an error at bind time, and a zero part count raises
the error saying the number of parts must be greater than 0. -/
theorem claim9_decode_bind_args :
    (∀ (k : CurveKind) (C : ℕ) (np : BindArg ℕ) (rf ru : BindArg Bool)
        (d : DecodeBound), lindelDecodeToArrayBind k C np rf ru = Except.ok d →
        (∃ n, np = BindArg.value n ∧ n ≠ 0) ∧ (∃ f, rf = BindArg.value f) ∧
          ∃ u, ru = BindArg.value u) ∧
    (∀ (k : CurveKind) (C : ℕ) (np : BindArg ℕ) (rf ru : BindArg Bool),
        (np = BindArg.nullConst ∨ np = BindArg.notConst ∨ rf = BindArg.nullConst ∨
          rf = BindArg.notConst ∨ ru = BindArg.nullConst ∨ ru = BindArg.notConst) →
        ∃ e, lindelDecodeToArrayBind k C np rf ru = Except.error e) ∧
    (∀ (k : CurveKind) (C : ℕ) (f u : Bool),
        lindelDecodeToArrayBind k C (BindArg.value 0) (BindArg.value f)
          (BindArg.value u) =
          Except.error "Number of parts to return must be greater than 0.") := by
  refine ⟨?_, ?_, ?_⟩
  · intro k C np rf ru d h
    cases np with
    | value n =>
      cases rf with
      | value f =>
        cases ru with
        | value u =>
          refine ⟨⟨n, rfl, ?_⟩, ⟨f, rfl⟩, ⟨u, rfl⟩⟩
          intro hn
          subst hn
          rw [show lindelDecodeToArrayBind k C (BindArg.value 0) (BindArg.value f)
              (BindArg.value u) = Except.error
              "Number of parts to return must be greater than 0." from rfl] at h
          cases h
        | nullConst => cases h
        | notConst => cases h
      | nullConst => cases h
      | notConst => cases h
    | nullConst => cases h
    | notConst => cases h
  · intro k C np rf ru hbad
    cases np <;> cases rf <;> cases ru <;>
      first
        | exact ⟨_, rfl⟩
        | (rcases hbad with h | h | h | h | h | h <;> cases h)
  · intro k C f u
    rfl

/-- Witness for C9: a NULL flag argument and a zero part count are both
rejected at bind time. -/
theorem claim9_decode_bind_args_witness :
    (∃ e, lindelDecodeToArrayBind CurveKind.hilbert 32 (BindArg.value 2)
        BindArg.nullConst (BindArg.value false) = Except.error e) ∧
    lindelDecodeToArrayBind CurveKind.hilbert 32 (BindArg.value 0)
        (BindArg.value false) (BindArg.value false) =
      Except.error "Number of parts to return must be greater than 0." :=
  ⟨claim9_decode_bind_args.2.1 CurveKind.hilbert 32 (BindArg.value 2)
      BindArg.nullConst (BindArg.value false) (Or.inr (Or.inr (Or.inl rfl))),
    claim9_decode_bind_args.2.2 CurveKind.hilbert 32 false false⟩

/-- Witness for C5: TINYINT lanes with N = 3 bind with output width 32,
the rounding of 24. -/
theorem claim5_encode_bind_table_witness :
    lindelEncodeArrayBind ElemRepr.u8 3 = Except.ok 32 ∧
      stdCeil (3 * 8) = some 32 :=
  have h : lindelEncodeArrayBind ElemRepr.u8 3 = Except.ok 32 :=
    (claim5_encode_bind_table ElemRepr.u8 3 32).1.mpr
      (Or.inr (Or.inr (Or.inl ⟨rfl, by norm_num, by norm_num, rfl⟩)))
  ⟨h, (claim5_encode_bind_table ElemRepr.u8 3 32).2 h⟩

/-- Witness for C7 amended: a UBIGINT code word with 2 float parts binds to
FLOAT[2]. -/
theorem claim7_decode_float_bind_witness :
    lindelDecodeToArrayBind CurveKind.hilbert 64 (BindArg.value 2)
        (BindArg.value true) (BindArg.value false) =
      Except.ok ⟨CurveKind.hilbert, ElemRepr.f32, 2⟩ :=
  (claim7_decode_float_bind CurveKind.hilbert 64 2 false (by norm_num)).2.2.2.1 rfl rfl

end Lindel
